import Mathlib

/-!
Verification of the gaia networking repository against its natural-language
specification.

The development shallowly embeds the relevant program fragments:

* `examples/pingserver/ping_iouring_server.cc`: the error-classification
  predicate `is_conn_closed`, the connection handler
  `PingConnection::HandleRequests` (modelled as a function over a finite
  trace of socket-operation results), and the shutdown sequence of `main`.
* `strings/numbers.cc`: the checked integer parsers
  (`safe_parse_sign_and_base`, `safe_parse_positive_int`,
  `safe_parse_negative_int`, `safe_int_internal`, `safe_strto32_base`,
  `safe_strto64_base`), the left-aligned decimal formatter
  `FastUInt32ToBufferLeft` together with its `two_ASCII_digits` table, and
  the digit-aware comparator `AutoDigitStrCmp`.

Machine integers are modelled as `Int`/`Nat`; the C overflow guards always
execute before the arithmetic they protect, so the embedded arithmetic is
exact.  C strings are modelled as `List Char` (the sources only ever treat
them as byte sequences compared by ASCII code).
-/

/-! ### Error codes and connection-close classification

`boost::system::error_code` values produced by the uring socket are errno
based; we model an error code as the errno value (`0` = no error).  The
comparisons `ec == std::errc::connection_aborted` and
`ec == std::errc::connection_reset` match the Linux errno values 103 and
104. -/

/-- Linux errno for `ECONNABORTED` (`std::errc::connection_aborted`). -/
def connectionAborted : Nat := 103

/-- Linux errno for `ECONNRESET` (`std::errc::connection_reset`). -/
def connectionReset : Nat := 104

/-- Embedding of `is_conn_closed` (ping_iouring_server.cc, lines 45-47):
`return (ec == std::errc::connection_aborted) || (ec == std::errc::connection_reset);` -/
def is_conn_closed (ec : Nat) : Bool :=
  (ec == connectionAborted) || (ec == connectionReset)

/-! ### The connection handler `PingConnection::HandleRequests`

The handler runs a loop; each iteration performs one `read_some` and, when
`cmd_.Decode` accepts the chunk, one `write_some` of the fixed reply.  The
environment (socket results and the decoder verdict) is modelled as a trace
of per-iteration inputs.  `PingCommand` (`ping_command.h`) is not part of
the sources, so the verdict of `cmd_.Decode(res)` is an oracle value
carried by the trace; the reply buffer length is the parameter `R`.

The fiber socket itself (`util/uring/fiber_socket.cc`) is also outside the
sources.  Modelled from the spec: `read_some(buffer) -> (bytes_read, error)`
"resumes with either a byte count (0 signals orderly peer close) or an
error", so a trace entry may carry any byte count together with any error
code, including the orderly-close result `(0, ok)`. -/

/-- Environment inputs consumed by one iteration of the handler loop:
the result `(readBytes, readEc)` of `socket_.read_some`, the verdict
`decodeOk` of `cmd_.Decode(res)`, and the result `(writeBytes, writeEc)`
of `socket_.write_some` (used only when a write is issued). -/
structure IterInput where
  readBytes : Nat
  readEc : Nat
  decodeOk : Bool
  writeBytes : Nat
  writeEc : Nat
  deriving DecidableEq, Repr

/-- A socket operation issued by the handler.  `write requested returned`
records a `write_some` call for a `requested`-byte reply that reported
`returned` bytes written. -/
inductive SockOp where
  | read : SockOp
  | write (requested returned : Nat) : SockOp
  | shutdownRW : SockOp
  deriving DecidableEq, Repr

/-- How a run of `HandleRequests` ends.
`cleanExit`: the loop broke via `is_conn_closed`, `Shutdown(SHUT_RDWR)` was
issued and the function returned (the connection task ends cleanly).
`checkFailAbort ec`: a `CHECK(!ec)` failed; glog `CHECK` logs at FATAL
severity and aborts the whole process, Proactor thread included.
`outOfInput`: the trace ended while the loop would have continued (a
modelling artifact, not a program outcome). -/
inductive HandlerExit where
  | cleanExit : HandlerExit
  | checkFailAbort (ec : Nat) : HandlerExit
  | outOfInput : HandlerExit
  deriving DecidableEq, Repr

/-- Does the exit abort the entire process (and with it the Proactor and
every other connection)?  True exactly for a failed `CHECK`. -/
def abortsProcess : HandlerExit → Bool
  | .checkFailAbort _ => true
  | _ => false

/-- Socket operations issued during one iteration of the handler loop
(ping_iouring_server.cc, lines 52-64): always the `read_some`; the
`write_some` of the reply exactly when the read error was not a benign
close, was not fatal (`CHECK(!ec)` passed), and `cmd_.Decode(res)`
returned true. -/
def iterOps (R : Nat) (it : IterInput) : List SockOp :=
  .read ::
    (if ¬ (is_conn_closed it.readEc) ∧ it.readEc = 0 ∧ it.decodeOk then
      [.write R it.writeBytes]
    else [])

/-- Embedding of `PingConnection::HandleRequests`
(ping_iouring_server.cc, lines 49-67) as a function of the environment
trace.  Returns the socket operations issued (in order) and how the run
ends.  Mirrors the source loop: benign close breaks out of the loop and
`Shutdown(SHUT_RDWR)` runs; `CHECK(!ec)` aborts on any other nonzero read
error; a decoded chunk triggers one reply write whose error is likewise
`CHECK`ed; otherwise the loop repeats. -/
def handleRequests (R : Nat) : List IterInput → List SockOp × HandlerExit
  | [] => ([], .outOfInput)
  | it :: rest =>
    if is_conn_closed it.readEc then
      (iterOps R it ++ [.shutdownRW], .cleanExit)
    else if it.readEc ≠ 0 then
      (iterOps R it, .checkFailAbort it.readEc)
    else if it.decodeOk then
      if it.writeEc ≠ 0 then
        (iterOps R it, .checkFailAbort it.writeEc)
      else
        let k := handleRequests R rest
        (iterOps R it ++ k.1, k.2)
    else
      let k := handleRequests R rest
      (iterOps R it ++ k.1, k.2)

/-- Is the operation a `read_some`? -/
def SockOp.isRead : SockOp → Bool
  | .read => true
  | _ => false

/-- Is the operation a `write_some`? -/
def SockOp.isWrite : SockOp → Bool
  | .write _ _ => true
  | _ => false

/-- Number of `write_some` calls in a list of operations. -/
def writeCount (ops : List SockOp) : Nat := ops.countP (fun o => o.isWrite)

/-- Number of `read_some` calls in a list of operations. -/
def readCount (ops : List SockOp) : Nat := ops.countP (fun o => o.isRead)

/-! ### The shutdown sequence of `main`

`main` (ping_iouring_server.cc, lines 76-108) installs a break-signal
callback `[&] { uring_acceptor.Stop(true); proactor.Stop(); }` and then
executes `t1.join(); accept_server.Stop(true); return 0;`.  On a shutdown
signal the callback runs to completion first; `proactor.Run()` returns
only after `proactor.Stop()` (spec contract of `Run`/`Stop`), so
`t1.join()` completes afterwards, then the auxiliary http accept server is
stopped and the process exits.  The resulting linear order of lifecycle
events is embedded as a list. -/

/-- Lifecycle events on the shutdown path of `main`. -/
inductive MainEvent where
  | uringAcceptorStop (wait : Bool) : MainEvent
  | proactorStop : MainEvent
  | proactorRunReturns : MainEvent
  | proactorThreadJoined : MainEvent
  | httpAcceptServerStop (wait : Bool) : MainEvent
  | processExit : MainEvent
  deriving DecidableEq, Repr

/-- The break-signal callback registered in `main` (lines 99-102), in
source order: `uring_acceptor.Stop(true); proactor.Stop();`. -/
def breakSignalCallback : List MainEvent :=
  [.uringAcceptorStop true, .proactorStop]

/-- The shutdown-path event sequence of `main`: the signal callback runs,
`proactor.Run()` returns and `t1.join()` completes (line 104), the http
accept server is stopped with `wait = true` (line 105) and the process
exits (line 107). -/
def mainShutdownTrace : List MainEvent :=
  breakSignalCallback ++
    [.proactorRunReturns, .proactorThreadJoined, .httpAcceptServerStop true, .processExit]

/-! ### Proactor construction (spec model)

`util/uring/proactor.cc` is not among the sources; only its call site
`Proactor proactor{FLAGS_queue_depth};` (line 92, default depth 256) is. -/

/-- Modelled from the spec: the `Proactor` constructor
(`util/uring/proactor.cc`, absent from the sources).  Spec 4.1: "`new
(queue_depth)`: constructs with a bounded submission capacity; fails with a
configuration error if `queue_depth` is not a positive power-of-two
-compatible size required by the underlying mechanism."  Success is `ok`
carrying the accepted depth; failure is a configuration error surfaced to
the caller at construction time. -/
def proactorNew (queue_depth : Nat) : Except String Nat :=
  if 0 < queue_depth ∧ decide (∃ k ≤ queue_depth, queue_depth = 2 ^ k) then
    .ok queue_depth
  else
    .error "invalid queue depth"

/-- Did construction succeed? -/
def proactorNewOk (queue_depth : Nat) : Bool :=
  match proactorNew queue_depth with
  | .ok _ => true
  | .error _ => false

/-! ### Checked integer parsing (`strings/numbers.cc`)

`safe_strto32_base` / `safe_strto64_base` call `safe_int_internal<IntType>`
over the byte range of the input.  The C out-parameter/bool protocol is
modelled by `Option Int` (`some v` = returns true with `*value_p = v`).
The templates are instantiated by passing the numeric limits `vmax`/`vmin`
explicitly.  All guards in the C loops run before the arithmetic they
protect, so plain `Int` arithmetic is exact; the C `/` and `%` on `int`
truncate toward zero and are embedded as `Int.tdiv` / `Int.tmod`. -/

/-- Embedding of the `kAsciiToInt` table (numbers.cc, lines 201-220):
digit values for `0-9`, `A-Z`, `a-z`, and 36 for every other byte. -/
def kAsciiToInt (c : Char) : Nat :=
  if 48 ≤ c.toNat ∧ c.toNat ≤ 57 then c.toNat - 48
  else if 65 ≤ c.toNat ∧ c.toNat ≤ 90 then c.toNat - 65 + 10
  else if 97 ≤ c.toNat ∧ c.toNat ≤ 122 then c.toNat - 97 + 10
  else 36

/-- `absl::ascii_isspace`: space, tab, newline, vertical tab, form feed,
carriage return. -/
def ascii_isspace (c : Char) : Bool :=
  c.toNat == 32 || c.toNat == 9 || c.toNat == 10 ||
    c.toNat == 11 || c.toNat == 12 || c.toNat == 13

/-- The base-dependent-prefix part of `safe_parse_sign_and_base`
(numbers.cc, lines 252-276): for base 0, `0x` selects base 16, a leading
`0` selects base 8, otherwise base 10; for base 16 an optional `0x` is
consumed; any other base must lie in 2..36 or the parse fails. -/
def consumeBase (l : List Char) (base : Int) : Option (List Char × Int) :=
  if base == 0 then
    match l with
    | '0' :: x :: rest =>
      if x == 'x' || x == 'X' then some (rest, 16) else some (x :: rest, 8)
    | ['0'] => some ([], 8)
    | _ => some (l, 10)
  else if base == 16 then
    match l with
    | '0' :: x :: rest =>
      if x == 'x' || x == 'X' then some (rest, 16) else some (l, 16)
    | _ => some (l, 16)
  else if 2 ≤ base ∧ base ≤ 36 then some (l, base)
  else none

/-- Embedding of `safe_parse_sign_and_base` (numbers.cc, lines 224-281).
Trims ASCII whitespace from both ends, consumes an optional sign, resolves
the base via `consumeBase`, and returns the remaining digit range together
with the resolved base and the sign.  `none` models `return false`. -/
def safe_parse_sign_and_base (s : List Char) (base : Int) :
    Option (List Char × Int × Bool) :=
  let t := ((s.dropWhile ascii_isspace).reverse.dropWhile ascii_isspace).reverse
  match t with
  | [] => none
  | c :: rest =>
    let negative := c == '-'
    if negative || c == '+' then
      match rest with
      | [] => none
      | _ => consumeBase rest base |>.map fun p => (p.1, p.2, negative)
    else
      consumeBase (c :: rest) base |>.map fun p => (p.1, p.2, negative)

/-- The digit loop of `safe_parse_positive_int` (numbers.cc, lines
317-325), with the running value made explicit.  Checks, in source order:
overflow of the multiply (`value > vmax / base`, truncating division),
digit validity (`digit >= base`), overflow of the add
(`value > vmax - digit`). -/
def safe_parse_positive_loop (vmax base : Int) (value : Int) :
    List Char → Option Int
  | [] => some value
  | c :: rest =>
    let digit : Int := (kAsciiToInt c : Int)
    if value > Int.tdiv vmax base then none
    else if digit ≥ base then none
    else if value * base > vmax - digit then none
    else safe_parse_positive_loop vmax base (value * base + digit) rest

/-- Embedding of `safe_parse_positive_int` (numbers.cc, lines 307-328):
starts the loop at 0. -/
def safe_parse_positive_int (vmax base : Int) (l : List Char) : Option Int :=
  safe_parse_positive_loop vmax base 0 l

/-- The digit loop of `safe_parse_negative_int` (numbers.cc, lines
344-354): underflow of the multiply (`value < vmin_over_base`), digit
validity, underflow of the subtract (`value < vmin + digit`). -/
def safe_parse_negative_loop (vmin vmin_over_base base : Int) (value : Int) :
    List Char → Option Int
  | [] => some value
  | c :: rest =>
    let digit : Int := (kAsciiToInt c : Int)
    if value < vmin_over_base then none
    else if digit ≥ base then none
    else if value * base < vmin + digit then none
    else safe_parse_negative_loop vmin vmin_over_base base (value * base - digit) rest

/-- Embedding of `safe_parse_negative_int` (numbers.cc, lines 330-357):
computes `vmin_over_base = vmin / base`, adjusted by one when
`vmin % base > 0` (dead under the C++11 truncating `%`, kept for
fidelity), then runs the loop from 0. -/
def safe_parse_negative_int (vmin base : Int) (l : List Char) : Option Int :=
  let vob := Int.tdiv vmin base
  let vob := if Int.tmod vmin base > 0 then vob + 1 else vob
  safe_parse_negative_loop vmin vob base 0 l

/-- Embedding of `safe_int_internal` (numbers.cc, lines 361-373). -/
def safe_int_internal (vmax vmin : Int) (s : List Char) (base : Int) :
    Option Int :=
  match safe_parse_sign_and_base s base with
  | none => none
  | some (digits, b, negative) =>
    if negative then safe_parse_negative_int vmin b digits
    else safe_parse_positive_int vmax b digits

/-- `std::numeric_limits<int32>::max()`. -/
def int32max : Int := 2 ^ 31 - 1

/-- `std::numeric_limits<int32>::min()`. -/
def int32min : Int := -(2 ^ 31)

/-- `std::numeric_limits<int64>::max()`. -/
def int64max : Int := 2 ^ 63 - 1

/-- `std::numeric_limits<int64>::min()`. -/
def int64min : Int := -(2 ^ 63)

/-- Embedding of `safe_strto32_base` (numbers.cc, lines 387-390). -/
def safe_strto32_base (s : List Char) (base : Int) : Option Int :=
  safe_int_internal int32max int32min s base

/-- Embedding of `safe_strto64_base` (numbers.cc, lines 392-395). -/
def safe_strto64_base (s : List Char) (base : Int) : Option Int :=
  safe_int_internal int64max int64min s base

/-- Numeric value of a digit string under base `b`
(most significant first): the mathematical reading of the spec's
"digit string in base b whose value ...". -/
def digitsVal (b : Int) (l : List Char) : Int :=
  l.foldl (fun a c => a * b + (kAsciiToInt c : Int)) 0

/-- Every character is a valid digit for base `b`. -/
def allValidDigits (b : Int) (l : List Char) : Bool :=
  l.all fun c => (kAsciiToInt c : Int) < b

/-- The claim's reading of `safe_strto32_base`/`safe_strto64_base`
(claim C8), stated as a reference parser: after trimming whitespace and
consuming an optional sign and base prefix the remainder must be a
non-empty string of valid digits whose signed value fits in
`[vmin, vmax]`; then the parsed value is that signed value. -/
def claimedSafeInt (vmax vmin : Int) (s : List Char) (base : Int) :
    Option Int :=
  match safe_parse_sign_and_base s base with
  | none => none
  | some (digits, b, negative) =>
    let v := if negative then -(digitsVal b digits) else digitsVal b digits
    if digits ≠ [] ∧ allValidDigits b digits ∧ vmin ≤ v ∧ v ≤ vmax then
      some v
    else none

/-! ### Left-aligned decimal formatting (`strings/numbers.cc`)

`FastUInt32ToBufferLeft` writes the decimal form of a `uint32` two digits
at a time through the `two_ASCII_digits` table, using `goto` between label
blocks.  The buffer is modelled as the list of characters written before
the terminating NUL; each label block becomes a function returning the
characters it and its fall-through successors emit.  The returned pointer
is the write position of the NUL, i.e. `buffer` plus the length of the
emitted list. -/

/-- Embedding of the `two_ASCII_digits` table (numbers.cc, lines 453-474). -/
def two_ASCII_digits : List (Char × Char) := [
  ('0', '0'), ('0', '1'), ('0', '2'), ('0', '3'), ('0', '4'),
  ('0', '5'), ('0', '6'), ('0', '7'), ('0', '8'), ('0', '9'),
  ('1', '0'), ('1', '1'), ('1', '2'), ('1', '3'), ('1', '4'),
  ('1', '5'), ('1', '6'), ('1', '7'), ('1', '8'), ('1', '9'),
  ('2', '0'), ('2', '1'), ('2', '2'), ('2', '3'), ('2', '4'),
  ('2', '5'), ('2', '6'), ('2', '7'), ('2', '8'), ('2', '9'),
  ('3', '0'), ('3', '1'), ('3', '2'), ('3', '3'), ('3', '4'),
  ('3', '5'), ('3', '6'), ('3', '7'), ('3', '8'), ('3', '9'),
  ('4', '0'), ('4', '1'), ('4', '2'), ('4', '3'), ('4', '4'),
  ('4', '5'), ('4', '6'), ('4', '7'), ('4', '8'), ('4', '9'),
  ('5', '0'), ('5', '1'), ('5', '2'), ('5', '3'), ('5', '4'),
  ('5', '5'), ('5', '6'), ('5', '7'), ('5', '8'), ('5', '9'),
  ('6', '0'), ('6', '1'), ('6', '2'), ('6', '3'), ('6', '4'),
  ('6', '5'), ('6', '6'), ('6', '7'), ('6', '8'), ('6', '9'),
  ('7', '0'), ('7', '1'), ('7', '2'), ('7', '3'), ('7', '4'),
  ('7', '5'), ('7', '6'), ('7', '7'), ('7', '8'), ('7', '9'),
  ('8', '0'), ('8', '1'), ('8', '2'), ('8', '3'), ('8', '4'),
  ('8', '5'), ('8', '6'), ('8', '7'), ('8', '8'), ('8', '9'),
  ('9', '0'), ('9', '1'), ('9', '2'), ('9', '3'), ('9', '4'),
  ('9', '5'), ('9', '6'), ('9', '7'), ('9', '8'), ('9', '9')]

/-- `'0' + digits` for a single decimal digit, as in the C code. -/
def dchar (d : Nat) : Char := Char.ofNat (48 + d)

/-- Table lookup `two_ASCII_digits[digits]`; the C code only indexes with
`digits < 100`. -/
def twoDigitChars (digits : Nat) : List Char :=
  let p := two_ASCII_digits.getD digits ('0', '0')
  [p.1, p.2]

/-- Label block `lt100` (numbers.cc, lines 534-539): emits
`two_ASCII_digits[u]` and falls through to `done`. -/
def lt100 (u : Nat) : List Char := twoDigitChars u

/-- Label block `sublt100` (line 532-533): `u -= digits * 100` then falls
into `lt100`. -/
def sublt100 (u digits : Nat) : List Char := lt100 (u - digits * 100)

/-- Label block `lt10_000` (lines 526-531): two chars of `u / 100`, then
`sublt100`. -/
def lt10_000 (u : Nat) : List Char :=
  let digits := u / 100
  twoDigitChars digits ++ sublt100 u digits

/-- Label block `sublt10_000` (lines 524-525). -/
def sublt10_000 (u digits : Nat) : List Char := lt10_000 (u - digits * 10000)

/-- Label block `lt1_000_000` (lines 518-523). -/
def lt1_000_000 (u : Nat) : List Char :=
  let digits := u / 10000
  twoDigitChars digits ++ sublt10_000 u digits

/-- Label block `sublt1_000_000` (lines 516-517). -/
def sublt1_000_000 (u digits : Nat) : List Char :=
  lt1_000_000 (u - digits * 1000000)

/-- Label block `lt100_000_000` (lines 510-515). -/
def lt100_000_000 (u : Nat) : List Char :=
  let digits := u / 1000000
  twoDigitChars digits ++ sublt1_000_000 u digits

/-- Label block `sublt100_000_000` (lines 508-509). -/
def sublt100_000_000 (u digits : Nat) : List Char :=
  lt100_000_000 (u - digits * 100000000)

/-- Embedding of `FastUInt32ToBufferLeft` (numbers.cc, lines 493-573):
the characters written before the terminating NUL, following the source's
branch structure (huge-number case first, then the ranges below one
billion with their single-digit entry points). -/
def FastUInt32ToBufferLeft (u : Nat) : List Char :=
  if u ≥ 1000000000 then
    let digits := u / 100000000
    twoDigitChars digits ++ sublt100_000_000 u digits
  else if u < 100 then
    if u ≥ 10 then lt100 u else [dchar u]
  else if u < 10000 then
    if u ≥ 1000 then lt10_000 u
    else dchar (u / 100) :: sublt100 u (u / 100)
  else if u < 1000000 then
    if u ≥ 100000 then lt1_000_000 u
    else dchar (u / 10000) :: sublt10_000 u (u / 10000)
  else if u < 100000000 then
    if u ≥ 10000000 then lt100_000_000 u
    else dchar (u / 1000000) :: sublt1_000_000 u (u / 1000000)
  else
    dchar (u / 100000000) :: sublt100_000_000 u (u / 100000000)

/-- The full byte sequence `FastUInt32ToBufferLeft` writes, including the
terminating NUL stored by `*buffer = 0`. -/
def fastUInt32Written (u : Nat) : List Char :=
  FastUInt32ToBufferLeft u ++ [Char.ofNat 0]

/-- Offset (from the start of the buffer) of the pointer the function
returns: it points at the NUL terminator it just wrote. -/
def fastUInt32RetOffset (u : Nat) : Nat := (FastUInt32ToBufferLeft u).length

/-- Zero-padded `n`-digit decimal form of `u` (helper for stating and
proving digit identities). -/
def padDec : Nat → Nat → List Char
  | 0, _ => []
  | n + 1, u => padDec n (u / 10) ++ [dchar (u % 10)]

/-- The naive decimal formatter the claim compares against: repeated
division by ten, most significant digit first, no padding. -/
def naiveDecimal (u : Nat) : List Char :=
  if _h : u < 10 then [dchar u]
  else naiveDecimal (u / 10) ++ [dchar (u % 10)]
decreasing_by exact Nat.div_lt_self (by omega) (by omega)


/-! ### Digit-aware string comparison (`strings/numbers.cc`)

`AutoDigitStrCmp` scans two byte strings; when both current bytes are
digits it compares the digit runs numerically (skip leading zeroes, then
compare run lengths, then digits; in strict mode differing leading-zero
counts break ties), otherwise it compares bytes.  The while loop consumes
at least one byte of each string per iteration, so it is embedded with the
combined length as fuel; `AutoDigitStrCmp` supplies exactly that fuel. -/

/-- C `isdigit` in the POSIX locale: the bytes `'0'`..`'9'`. -/
def isDig (c : Char) : Bool := 48 ≤ c.toNat && c.toNat ≤ 57

/-- Is the byte the digit zero?  (`a[aindex] == '0'`). -/
def isZeroDigit (c : Char) : Bool := c == '0'

/-- The inner digit-by-digit loop of `AutoDigitStrCmp` (numbers.cc, lines
633-639); only ever called on runs of equal length. -/
def lexCmp : List Char → List Char → Int
  | a :: as, b :: bs =>
    if a < b then -1 else if b < a then 1 else lexCmp as bs
  | _, _ => 0

/-- One-iteration-per-call embedding of the `AutoDigitStrCmp` while loop
(numbers.cc, lines 599-672), with fuel.  Zero fuel is never reached when
starting from `AutoDigitStrCmp`. -/
def autoDigitCmpAux (strict : Bool) : Nat → List Char → List Char → Int
  | 0, _, _ => 0
  | _ + 1, [], [] => 0
  | _ + 1, [], _ :: _ => -1
  | _ + 1, _ :: _, [] => 1
  | f + 1, ca :: ta, cb :: tb =>
    if isDig ca && isDig cb then
      let az := ((ca :: ta).takeWhile isZeroDigit).length
      let bz := ((cb :: tb).takeWhile isZeroDigit).length
      let sa := (ca :: ta).dropWhile isZeroDigit
      let sb := (cb :: tb).dropWhile isZeroDigit
      let ra := sa.takeWhile isDig
      let rb := sb.takeWhile isDig
      if ra.length < rb.length then -1
      else if rb.length < ra.length then 1
      else
        let r := lexCmp ra rb
        if r ≠ 0 then r
        else if strict && az ≠ bz then if bz < az then -1 else 1
        else autoDigitCmpAux strict f (sa.dropWhile isDig) (sb.dropWhile isDig)
    else if ca < cb then -1
    else if cb < ca then 1
    else autoDigitCmpAux strict f ta tb

/-- Embedding of `AutoDigitStrCmp(a, alen, b, blen, strict)` (numbers.cc,
lines 599-672); the lengths are implicit in the list arguments. -/
def AutoDigitStrCmp (a b : List Char) (strict : Bool) : Int :=
  autoDigitCmpAux strict (a.length + b.length) a b

/-- Embedding of `AutoDigitLessThan` (numbers.cc, lines 674-676). -/
def AutoDigitLessThan (a b : List Char) : Bool :=
  AutoDigitStrCmp a b false < 0

/-- Embedding of `StrictAutoDigitLessThan` (numbers.cc, lines 678-681). -/
def StrictAutoDigitLessThan (a b : List Char) : Bool :=
  AutoDigitStrCmp a b true < 0

/-- Numeric value of a decimal digit run. -/
def runVal (l : List Char) : Nat :=
  l.foldl (fun a c => a * 10 + (c.toNat - 48)) 0

/-- One element of the abstract shape of a string as `AutoDigitStrCmp`
sees it: either a non-digit byte or a maximal digit run taken by its
numeric value. -/
inductive AToken where
  | ch (c : Char) : AToken
  | num (v : Nat) : AToken
  deriving DecidableEq, Repr

/-- Tokenizer (fuel recursion; `tokens` supplies sufficient fuel): maximal
digit runs become `num` of their numeric value, other bytes become
`ch`. -/
def tokensAux : Nat → List Char → List AToken
  | 0, _ => []
  | _ + 1, [] => []
  | f + 1, c :: t =>
    if isDig c then
      .num (runVal ((c :: t).takeWhile isDig)) :: tokensAux f ((c :: t).dropWhile isDig)
    else
      .ch c :: tokensAux f t

/-- Abstract shape of a string: its non-digit bytes and the numeric values
of its maximal digit runs, in order.  Two strings have the same `tokens`
exactly when their corresponding digit runs are numerically equal and
everything else is identical. -/
def tokens (l : List Char) : List AToken := tokensAux l.length l

/-- The amended reading of the checked parsers (claim C8 corrected): same
as `claimedSafeInt` except that the digit string left after consuming a
base prefix may be empty — the code accepts inputs such as `"0"` under
base 0 and `"0x"` under base 16 (and their signed forms), yielding the
value 0, because the prefix consumption already swallowed the leading
zero. -/
def amendedSafeInt (vmax vmin : Int) (s : List Char) (base : Int) :
    Option Int :=
  match safe_parse_sign_and_base s base with
  | none => none
  | some (digits, b, negative) =>
    let v := if negative then -(digitsVal b digits) else digitsVal b digits
    if allValidDigits b digits ∧ vmin ≤ v ∧ v ≤ vmax then some v
    else none

/-! ## Claims about the ping server example -/

/-- C1: `is_conn_closed ec` holds exactly for `connection_aborted` and
`connection_reset`; exactly these make the handler's read loop exit
cleanly (no fault), and every other nonzero read error is treated as a
fault (`CHECK` failure). -/
theorem conn_closed_classification :
    ∀ ec : Nat,
      (is_conn_closed ec = true ↔ (ec = connectionAborted ∨ ec = connectionReset))
      ∧ (∀ (R : Nat) (it : IterInput) (rest : List IterInput), it.readEc = ec →
          is_conn_closed ec = true →
          handleRequests R (it :: rest) = ([.read, .shutdownRW], .cleanExit))
      ∧ (∀ (R : Nat) (it : IterInput) (rest : List IterInput), it.readEc = ec →
          is_conn_closed ec = false → ec ≠ 0 →
          (handleRequests R (it :: rest)).2 = .checkFailAbort ec) := by
  intro ec
  refine ⟨?_, ?_, ?_⟩
  · simp [is_conn_closed, connectionAborted, connectionReset]
  · intro R it rest h1 h2
    simp [handleRequests, h1, h2, iterOps]
  · intro R it rest h1 h2 h3
    simp [handleRequests, h1, h2, h3]

/-- Witness for C1 at the concrete error codes 103 (benign) and 5
(fatal). -/
theorem conn_closed_classification_witness :
    is_conn_closed 103 = true
      ∧ handleRequests 7 [⟨0, 103, false, 0, 0⟩] = ([.read, .shutdownRW], .cleanExit)
      ∧ (handleRequests 7 [⟨0, 5, false, 0, 0⟩]).2 = .checkFailAbort 5 :=
  ⟨by decide,
   (conn_closed_classification 103).2.1 7 ⟨0, 103, false, 0, 0⟩ [] rfl (by decide),
   (conn_closed_classification 5).2.2 7 ⟨0, 5, false, 0, 0⟩ [] rfl (by decide) (by decide)⟩

/-- C2 counterexample: a `read_some` result of 0 bytes with no error is
not classified as a close by the handler — it runs another loop iteration
and issues a further `read_some` instead of returning. -/
theorem zero_byte_read_counterexample :
    (handleRequests 7 [⟨0, 0, false, 0, 0⟩, ⟨0, 103, false, 0, 0⟩]).1
        = [.read, .read, .shutdownRW]
      ∧ (handleRequests 7 [⟨0, 0, false, 0, 0⟩]).2 ≠ .cleanExit := by decide

/-- C2 amended: the handler returns cleanly — no fault, no socket
operation beyond the read and the final shutdown — exactly when
`read_some` reports a benign-close error code; a zero-byte error-free
read is not an exit condition: the loop continues and the iteration's
operations are followed by those of the next iterations. -/
theorem benign_close_clean_exit :
    ∀ (R : Nat) (it : IterInput) (rest : List IterInput),
      (is_conn_closed it.readEc = true →
        handleRequests R (it :: rest) = ([.read, .shutdownRW], .cleanExit))
      ∧ (it.readEc = 0 → it.writeEc = 0 →
        handleRequests R (it :: rest)
          = (iterOps R it ++ (handleRequests R rest).1, (handleRequests R rest).2)) := by
  intro R it rest
  constructor
  · intro h
    simp [handleRequests, h, iterOps]
  · intro h1 h2
    have hz : is_conn_closed 0 = false := by decide
    cases hd : it.decodeOk <;> simp [handleRequests, h1, h2, hz, hd]

/-- Witness for C2's amended theorem: a benign close exits with only the
read and a shutdown; a `(0, ok)` read continues into the next
iteration. -/
theorem benign_close_clean_exit_witness :
    handleRequests 7 [⟨0, 104, false, 0, 0⟩] = ([.read, .shutdownRW], .cleanExit)
      ∧ handleRequests 7 [⟨0, 0, false, 0, 0⟩]
          = (iterOps 7 ⟨0, 0, false, 0, 0⟩ ++ (handleRequests 7 []).1,
             (handleRequests 7 []).2) :=
  ⟨(benign_close_clean_exit 7 ⟨0, 104, false, 0, 0⟩ []).1 (by decide),
   (benign_close_clean_exit 7 ⟨0, 0, false, 0, 0⟩ []).2 rfl rfl⟩

/-- C3 counterexample: the example task handles a fatal per-operation
error (here errno 5, `EIO`) by a failing `CHECK`, which aborts the whole
process — the Proactor and every other connection included. -/
theorem fatal_error_abort_counterexample :
    (handleRequests 7 [⟨5, 5, false, 0, 0⟩]).2 = .checkFailAbort 5
      ∧ abortsProcess (handleRequests 7 [⟨5, 5, false, 0, 0⟩]).2 = true := by decide

/-- C3 amended: a fatal (nonzero, non-benign) error from `read_some` or
`write_some` is surfaced to the task, and this task's handling is a
`CHECK` failure that aborts the entire process (Proactor included) rather
than staying local to the connection. -/
theorem fatal_error_check_abort :
    ∀ (R : Nat) (it : IterInput) (rest : List IterInput),
      (is_conn_closed it.readEc = false → it.readEc ≠ 0 →
        (handleRequests R (it :: rest)).2 = .checkFailAbort it.readEc
          ∧ abortsProcess (handleRequests R (it :: rest)).2 = true)
      ∧ (it.readEc = 0 → it.decodeOk = true → it.writeEc ≠ 0 →
        (handleRequests R (it :: rest)).2 = .checkFailAbort it.writeEc
          ∧ abortsProcess (handleRequests R (it :: rest)).2 = true) := by
  intro R it rest
  constructor
  · intro h1 h2
    simp [handleRequests, h1, h2, abortsProcess]
  · intro h1 h2 h3
    have hz : is_conn_closed 0 = false := by decide
    simp [handleRequests, h1, h2, h3, hz, abortsProcess]

/-- Witness for C3's amended theorem at errno 5 on the read and errno 32
(`EPIPE`) on the write. -/
theorem fatal_error_check_abort_witness :
    ((handleRequests 7 [⟨5, 5, false, 0, 0⟩]).2 = .checkFailAbort 5
        ∧ abortsProcess (handleRequests 7 [⟨5, 5, false, 0, 0⟩]).2 = true)
      ∧ ((handleRequests 7 [⟨4, 0, true, 0, 32⟩]).2 = .checkFailAbort 32
        ∧ abortsProcess (handleRequests 7 [⟨4, 0, true, 0, 32⟩]).2 = true) :=
  ⟨(fatal_error_check_abort 7 ⟨5, 5, false, 0, 0⟩ []).1 (by decide) (by decide),
   (fatal_error_check_abort 7 ⟨4, 0, true, 0, 32⟩ []).2 rfl rfl (by decide)⟩

/-- C4 counterexample: a `write_some` that reports 1 byte written of a
7-byte reply is followed by no further `write_some` — the handler ignores
the returned count and proceeds to the next read, so the full reply is
not rewritten. -/
theorem short_write_counterexample :
    handleRequests 7 [⟨4, 0, true, 1, 0⟩, ⟨0, 103, false, 0, 0⟩]
        = ([.read, .write 7 1, .read, .shutdownRW], .cleanExit)
      ∧ 1 < 7
      ∧ writeCount (handleRequests 7 [⟨4, 0, true, 1, 0⟩, ⟨0, 103, false, 0, 0⟩]).1
          = 1 := by decide

/-- C4 amended: `write_some` has no implicit retry, and this caller does
not loop either — each decoded chunk triggers exactly one `write_some`,
whose returned byte count is ignored: whatever count the write reports,
the handler proceeds directly to the next iteration's read. -/
theorem single_write_per_chunk :
    ∀ (R : Nat) (it : IterInput) (rest : List IterInput),
      it.readEc = 0 → it.decodeOk = true → it.writeEc = 0 →
      handleRequests R (it :: rest)
        = (.read :: .write R it.writeBytes :: (handleRequests R rest).1,
           (handleRequests R rest).2) := by
  intro R it rest h1 h2 h3
  have hz : is_conn_closed 0 = false := by decide
  simp [handleRequests, h1, h2, h3, hz, iterOps]

/-- Witness for C4's amended theorem: with a 7-byte reply and a reported
count of 1, exactly one write is issued and the loop moves on. -/
theorem single_write_per_chunk_witness :
    handleRequests 7 [⟨4, 0, true, 1, 0⟩]
      = (.read :: .write 7 1 :: (handleRequests 7 []).1, (handleRequests 7 []).2) :=
  single_write_per_chunk 7 ⟨4, 0, true, 1, 0⟩ [] rfl rfl rfl

/-- C5: on the shutdown signal, `uring_acceptor.Stop(true)` (wait = true)
happens strictly before `proactor.Stop()`; `proactor.Run()` returns and
its thread is joined before the process exits. -/
theorem shutdown_order :
    breakSignalCallback = [.uringAcceptorStop true, .proactorStop]
      ∧ mainShutdownTrace.indexOf (.uringAcceptorStop true)
          < mainShutdownTrace.indexOf .proactorStop
      ∧ mainShutdownTrace.indexOf .proactorStop
          < mainShutdownTrace.indexOf .proactorRunReturns
      ∧ mainShutdownTrace.indexOf .proactorRunReturns
          ≤ mainShutdownTrace.indexOf .proactorThreadJoined
      ∧ mainShutdownTrace.indexOf .proactorThreadJoined
          < mainShutdownTrace.indexOf .processExit := by decide

set_option maxRecDepth 8000 in
/-- C6: Proactor construction succeeds exactly for positive power-of-two
queue depths (in particular the default 256) and otherwise surfaces a
configuration error to the caller at construction time. -/
theorem queue_depth_validation :
    (∀ qd : Nat, proactorNewOk qd = true ↔ (0 < qd ∧ ∃ k, qd = 2 ^ k))
      ∧ proactorNewOk 256 = true
      ∧ proactorNewOk 0 = false ∧ proactorNewOk 100 = false := by
  refine ⟨?_, by decide, by decide, by decide⟩
  intro qd
  unfold proactorNewOk proactorNew
  split_ifs with h
  · obtain ⟨h1, h2⟩ := h
    obtain ⟨k, -, hk⟩ := of_decide_eq_true h2
    exact iff_of_true rfl ⟨h1, k, hk⟩
  · refine iff_of_false (by simp) ?_
    rintro ⟨h1, k, hk⟩
    refine h ⟨h1, decide_eq_true ⟨k, ?_, hk⟩⟩
    have := Nat.lt_two_pow k
    omega

/-- C7: every iteration of the handler loop issues exactly one
`read_some` and at most one reply `write_some`, regardless of how many
logical requests the chunk contains; the handler's operation stream is
the concatenation of such per-iteration groups. -/
theorem one_read_at_most_one_write_per_iteration :
    ∀ (R : Nat) (it : IterInput),
      readCount (iterOps R it) = 1
      ∧ writeCount (iterOps R it) ≤ 1
      ∧ ∀ rest : List IterInput, ∃ t : List SockOp,
          (handleRequests R (it :: rest)).1 = iterOps R it ++ t := by
  intro R it
  refine ⟨?_, ?_, ?_⟩
  · unfold iterOps readCount
    split_ifs <;> simp [List.countP_cons, SockOp.isRead]
  · unfold iterOps writeCount
    split_ifs <;> simp [List.countP_cons, SockOp.isWrite]
  · intro rest
    unfold handleRequests
    split_ifs <;> first
      | exact ⟨[.shutdownRW], rfl⟩
      | exact ⟨[], (List.append_nil _).symm⟩
      | exact ⟨_, rfl⟩

/-! ## Claims about the checked integer parsers -/

/-- Truncating remainder of a nonpositive dividend by a positive divisor
is nonpositive. -/
theorem tmod_nonpos_of_nonpos (a b : Int) (ha : a ≤ 0) (_hb : 0 < b) :
    Int.tmod a b ≤ 0 := by
  have hneg : Int.tmod a b = -(Int.tmod (-a) b) := by
    rw [Int.tmod_def, Int.tmod_def, Int.neg_tdiv]
    ring
  have := Int.tmod_nonneg b (show (0:Int) ≤ -a by omega)
  omega

/-- Truncating remainder of a nonpositive dividend exceeds the negated
(positive) divisor. -/
theorem neg_lt_tmod_of_nonpos (a b : Int) (_ha : a ≤ 0) (hb : 0 < b) :
    -b < Int.tmod a b := by
  have hneg : Int.tmod a b = -(Int.tmod (-a) b) := by
    rw [Int.tmod_def, Int.tmod_def, Int.neg_tdiv]
    ring
  have := Int.tmod_lt_of_pos (-a) hb
  omega

/-- The positive overflow guard `value > vmax / base` (truncating
division) fires exactly when `value * base` would exceed `vmax`. -/
theorem tdiv_lt_iff_lt_mul (vmax b v : Int) (hb : 0 < b) (hv : 0 ≤ vmax) :
    Int.tdiv vmax b < v ↔ vmax < v * b := by
  rw [Int.tdiv_eq_ediv hv (le_of_lt hb)]
  constructor
  · intro h
    have := (Int.ediv_lt_iff_lt_mul hb).mp h
    omega
  · intro h
    exact (Int.ediv_lt_iff_lt_mul hb).mpr h

/-- The negative underflow guard `value < vmin / base` (truncating
division) fires exactly when `value * base` would drop below `vmin`. -/
theorem lt_tdiv_iff_mul_lt (vmin b v : Int) (hb : 0 < b) (hv : vmin ≤ 0) :
    v < Int.tdiv vmin b ↔ v * b < vmin := by
  have hqr := Int.tdiv_add_tmod vmin b
  have hr1 : Int.tmod vmin b ≤ 0 := tmod_nonpos_of_nonpos vmin b hv hb
  have hr2 : -b < Int.tmod vmin b := neg_lt_tmod_of_nonpos vmin b hv hb
  constructor
  · intro h
    have hle : v ≤ Int.tdiv vmin b - 1 := by omega
    have := mul_le_mul_of_nonneg_right hle (le_of_lt hb)
    have hexp : (Int.tdiv vmin b - 1) * b = b * Int.tdiv vmin b - b := by ring
    omega
  · intro h
    by_contra hc
    have hge : Int.tdiv vmin b ≤ v := by omega
    have := mul_le_mul_of_nonneg_right hge (le_of_lt hb)
    have hexp : Int.tdiv vmin b * b = b * Int.tdiv vmin b := by ring
    omega

/-- Accumulating digits never decreases a nonnegative accumulator. -/
theorem foldl_digits_le (b : Int) (hb : 1 ≤ b) :
    ∀ (l : List Char) (a : Int), 0 ≤ a →
      a ≤ l.foldl (fun x c => x * b + (kAsciiToInt c : Int)) a := by
  intro l
  induction l with
  | nil => intro a _; simp
  | cons c rest ih =>
    intro a ha
    have hd0 : (0 : Int) ≤ (kAsciiToInt c : Int) := Int.ofNat_nonneg _
    have hab : a ≤ a * b := le_mul_of_one_le_right ha hb
    have h2 : (0 : Int) ≤ a * b + (kAsciiToInt c : Int) := by omega
    simp only [List.foldl_cons]
    exact le_trans (by omega) (ih _ h2)

/-- The subtracting fold of `safe_parse_negative_int` is the negation of
the adding fold started from the negated accumulator. -/
theorem foldl_digits_neg (b : Int) :
    ∀ (l : List Char) (a : Int),
      l.foldl (fun x c => x * b - (kAsciiToInt c : Int)) a
        = -(l.foldl (fun x c => x * b + (kAsciiToInt c : Int)) (-a)) := by
  intro l
  induction l with
  | nil => intro a; simp
  | cons c rest ih =>
    intro a
    simp only [List.foldl_cons]
    rw [ih]
    have : -(a * b - (kAsciiToInt c : Int)) = -a * b + (kAsciiToInt c : Int) := by
      ring
    rw [this]

/-- Accumulating digits with subtraction never increases a nonpositive
accumulator. -/
theorem foldl_digits_neg_le (b : Int) (hb : 1 ≤ b) (l : List Char) (a : Int)
    (ha : a ≤ 0) :
    l.foldl (fun x c => x * b - (kAsciiToInt c : Int)) a ≤ a := by
  rw [foldl_digits_neg]
  have := foldl_digits_le b hb l (-a) (by omega)
  omega

/-- Functional specification of the `safe_parse_positive_int` digit loop:
starting from an in-range accumulator it succeeds exactly when every
character is a valid digit and the accumulated value stays at most
`vmax`, in which case it returns that value. -/
theorem pos_loop_spec (vmax b : Int) (hb : 2 ≤ b) (hv : 0 ≤ vmax) :
    ∀ (l : List Char) (a : Int), 0 ≤ a → a ≤ vmax →
      safe_parse_positive_loop vmax b a l =
        if (∀ c ∈ l, (kAsciiToInt c : Int) < b)
            ∧ l.foldl (fun x c => x * b + (kAsciiToInt c : Int)) a ≤ vmax then
          some (l.foldl (fun x c => x * b + (kAsciiToInt c : Int)) a)
        else none := by
  intro l
  induction l with
  | nil =>
    intro a _ hav
    simp [safe_parse_positive_loop, hav]
  | cons c rest ih =>
    intro a ha hav
    have hb0 : (0 : Int) < b := by omega
    have hd0 : (0 : Int) ≤ (kAsciiToInt c : Int) := Int.ofNat_nonneg _
    have hab0 : (0 : Int) ≤ a * b := mul_nonneg ha (le_of_lt hb0)
    simp only [safe_parse_positive_loop, gt_iff_lt, ge_iff_le, List.foldl_cons,
      List.mem_cons, forall_eq_or_imp]
    by_cases h1 : Int.tdiv vmax b < a
    · rw [if_pos h1]
      have hmul : vmax < a * b := (tdiv_lt_iff_lt_mul vmax b a hb0 hv).mp h1
      have hmono := foldl_digits_le b (by omega) rest (a * b + (kAsciiToInt c : Int))
        (by omega)
      have hcond : ¬((((kAsciiToInt c : Int) < b) ∧ ∀ x ∈ rest, (kAsciiToInt x : Int) < b)
          ∧ List.foldl (fun x c => x * b + (kAsciiToInt c : Int))
              (a * b + (kAsciiToInt c : Int)) rest ≤ vmax) := by
        rintro ⟨-, hle⟩
        omega
      rw [if_neg hcond]
    · rw [if_neg h1]
      by_cases h2 : b ≤ (kAsciiToInt c : Int)
      · rw [if_pos h2]
        have hcond : ¬((((kAsciiToInt c : Int) < b) ∧ ∀ x ∈ rest, (kAsciiToInt x : Int) < b)
            ∧ List.foldl (fun x c => x * b + (kAsciiToInt c : Int))
                (a * b + (kAsciiToInt c : Int)) rest ≤ vmax) := by
          rintro ⟨⟨hlt, -⟩, -⟩
          omega
        rw [if_neg hcond]
      · rw [if_neg h2]
        by_cases h3 : vmax - (kAsciiToInt c : Int) < a * b
        · rw [if_pos h3]
          have hmono := foldl_digits_le b (by omega) rest (a * b + (kAsciiToInt c : Int))
            (by omega)
          have hcond : ¬((((kAsciiToInt c : Int) < b) ∧ ∀ x ∈ rest, (kAsciiToInt x : Int) < b)
              ∧ List.foldl (fun x c => x * b + (kAsciiToInt c : Int))
                  (a * b + (kAsciiToInt c : Int)) rest ≤ vmax) := by
            rintro ⟨-, hle⟩
            omega
          rw [if_neg hcond]
        · rw [if_neg h3]
          rw [ih (a * b + (kAsciiToInt c : Int)) (by omega) (by omega)]
          have hiff : ((∀ x ∈ rest, (kAsciiToInt x : Int) < b)
                ∧ List.foldl (fun x c => x * b + (kAsciiToInt c : Int))
                    (a * b + (kAsciiToInt c : Int)) rest ≤ vmax)
              ↔ ((((kAsciiToInt c : Int) < b) ∧ ∀ x ∈ rest, (kAsciiToInt x : Int) < b)
                ∧ List.foldl (fun x c => x * b + (kAsciiToInt c : Int))
                    (a * b + (kAsciiToInt c : Int)) rest ≤ vmax) := by
            constructor
            · rintro ⟨hall, hle⟩
              exact ⟨⟨by omega, hall⟩, hle⟩
            · rintro ⟨⟨-, hall⟩, hle⟩
              exact ⟨hall, hle⟩
          rw [if_congr hiff rfl rfl]

/-- Functional specification of the `safe_parse_negative_int` digit loop
(run with the truncating `vmin / base` bound): from an in-range
nonpositive accumulator it succeeds exactly when every character is a
valid digit and the accumulated (negated) value stays at least `vmin`. -/
theorem neg_loop_spec (vmin b : Int) (hb : 2 ≤ b) (hv : vmin ≤ 0) :
    ∀ (l : List Char) (a : Int), a ≤ 0 → vmin ≤ a →
      safe_parse_negative_loop vmin (Int.tdiv vmin b) b a l =
        if (∀ c ∈ l, (kAsciiToInt c : Int) < b)
            ∧ vmin ≤ l.foldl (fun x c => x * b - (kAsciiToInt c : Int)) a then
          some (l.foldl (fun x c => x * b - (kAsciiToInt c : Int)) a)
        else none := by
  intro l
  induction l with
  | nil =>
    intro a _ hav
    simp [safe_parse_negative_loop, hav]
  | cons c rest ih =>
    intro a ha hav
    have hb0 : (0 : Int) < b := by omega
    have hd0 : (0 : Int) ≤ (kAsciiToInt c : Int) := Int.ofNat_nonneg _
    have hab0 : a * b ≤ 0 := mul_nonpos_of_nonpos_of_nonneg ha (le_of_lt hb0)
    simp only [safe_parse_negative_loop, gt_iff_lt, ge_iff_le, List.foldl_cons,
      List.mem_cons, forall_eq_or_imp]
    by_cases h1 : a < Int.tdiv vmin b
    · rw [if_pos h1]
      have hmul : a * b < vmin := (lt_tdiv_iff_mul_lt vmin b a hb0 hv).mp h1
      have hmono := foldl_digits_neg_le b (by omega) rest
        (a * b - (kAsciiToInt c : Int)) (by omega)
      have hcond : ¬((((kAsciiToInt c : Int) < b) ∧ ∀ x ∈ rest, (kAsciiToInt x : Int) < b)
          ∧ vmin ≤ List.foldl (fun x c => x * b - (kAsciiToInt c : Int))
              (a * b - (kAsciiToInt c : Int)) rest) := by
        rintro ⟨-, hle⟩
        omega
      rw [if_neg hcond]
    · rw [if_neg h1]
      by_cases h2 : b ≤ (kAsciiToInt c : Int)
      · rw [if_pos h2]
        have hcond : ¬((((kAsciiToInt c : Int) < b) ∧ ∀ x ∈ rest, (kAsciiToInt x : Int) < b)
            ∧ vmin ≤ List.foldl (fun x c => x * b - (kAsciiToInt c : Int))
                (a * b - (kAsciiToInt c : Int)) rest) := by
          rintro ⟨⟨hlt, -⟩, -⟩
          omega
        rw [if_neg hcond]
      · rw [if_neg h2]
        by_cases h3 : a * b < vmin + (kAsciiToInt c : Int)
        · rw [if_pos h3]
          have hmono := foldl_digits_neg_le b (by omega) rest
            (a * b - (kAsciiToInt c : Int)) (by omega)
          have hcond : ¬((((kAsciiToInt c : Int) < b) ∧ ∀ x ∈ rest, (kAsciiToInt x : Int) < b)
              ∧ vmin ≤ List.foldl (fun x c => x * b - (kAsciiToInt c : Int))
                  (a * b - (kAsciiToInt c : Int)) rest) := by
            rintro ⟨-, hle⟩
            omega
          rw [if_neg hcond]
        · rw [if_neg h3]
          rw [ih (a * b - (kAsciiToInt c : Int)) (by omega) (by omega)]
          have hiff : ((∀ x ∈ rest, (kAsciiToInt x : Int) < b)
                ∧ vmin ≤ List.foldl (fun x c => x * b - (kAsciiToInt c : Int))
                    (a * b - (kAsciiToInt c : Int)) rest)
              ↔ ((((kAsciiToInt c : Int) < b) ∧ ∀ x ∈ rest, (kAsciiToInt x : Int) < b)
                ∧ vmin ≤ List.foldl (fun x c => x * b - (kAsciiToInt c : Int))
                    (a * b - (kAsciiToInt c : Int)) rest) := by
            constructor
            · rintro ⟨hall, hle⟩
              exact ⟨⟨by omega, hall⟩, hle⟩
            · rintro ⟨⟨-, hall⟩, hle⟩
              exact ⟨hall, hle⟩
          rw [if_congr hiff rfl rfl]

/-- The base resolved by `consumeBase` is always at least 2. -/
theorem consumeBase_two_le (l : List Char) (base : Int) (d : List Char)
    (eb : Int) (h : consumeBase l base = some (d, eb)) : 2 ≤ eb := by
  unfold consumeBase at h
  split_ifs at h with h0 h16 hr
  · split at h <;> (try split_ifs at h) <;>
      simp only [Option.some.injEq, Prod.mk.injEq] at h <;> omega
  · split at h <;> (try split_ifs at h) <;>
      simp only [Option.some.injEq, Prod.mk.injEq] at h <;> omega
  · simp only [Option.some.injEq, Prod.mk.injEq] at h
    omega

/-- The base resolved by `safe_parse_sign_and_base` is always at
least 2. -/
theorem sign_and_base_two_le (s : List Char) (base : Int) (digits : List Char)
    (eb : Int) (neg : Bool)
    (h : safe_parse_sign_and_base s base = some (digits, eb, neg)) : 2 ≤ eb := by
  simp only [safe_parse_sign_and_base] at h
  split at h
  · exact absurd h (by simp)
  · split_ifs at h
    · split at h
      · exact absurd h (by simp)
      · rw [Option.map_eq_some'] at h
        obtain ⟨⟨d1, b1⟩, hcb, hpair⟩ := h
        simp only [Prod.mk.injEq] at hpair
        obtain ⟨-, h2, -⟩ := hpair
        exact h2 ▸ consumeBase_two_le _ _ _ _ hcb
    · rw [Option.map_eq_some'] at h
      obtain ⟨⟨d1, b1⟩, hcb, hpair⟩ := h
      simp only [Prod.mk.injEq] at hpair
      obtain ⟨-, h2, -⟩ := hpair
      exact h2 ▸ consumeBase_two_le _ _ _ _ hcb

/-- `safe_int_internal` computes exactly the amended reference parser:
sign/base resolution per `safe_parse_sign_and_base`, then acceptance of
precisely the all-valid digit strings (possibly empty after a consumed
prefix) whose signed value lies in `[vmin, vmax]`. -/
theorem safe_int_internal_eq_amended (vmax vmin : Int) (hmax : 0 ≤ vmax)
    (hmin : vmin ≤ 0) (s : List Char) (base : Int) :
    safe_int_internal vmax vmin s base = amendedSafeInt vmax vmin s base := by
  unfold safe_int_internal amendedSafeInt
  cases hsb : safe_parse_sign_and_base s base with
  | none => rfl
  | some t =>
    obtain ⟨digits, eb, neg⟩ := t
    have heb : 2 ≤ eb := sign_and_base_two_le s base digits eb neg hsb
    have hall : (allValidDigits eb digits = true)
        ↔ ∀ c ∈ digits, (kAsciiToInt c : Int) < eb := by
      simp [allValidDigits]
    have hfold0 : (0 : Int) ≤ digitsVal eb digits :=
      foldl_digits_le eb (by omega) digits 0 le_rfl
    cases neg with
    | false =>
      simp only [Bool.false_eq_true, if_false]
      rw [safe_parse_positive_int, pos_loop_spec vmax eb heb hmax digits 0 le_rfl hmax]
      refine if_congr ?_ rfl rfl
      rw [hall]
      unfold digitsVal at hfold0 ⊢
      constructor
      · rintro ⟨ha, hle⟩
        exact ⟨ha, by omega, hle⟩
      · rintro ⟨ha, -, hle⟩
        exact ⟨ha, hle⟩
    | true =>
      have hmod : ¬ (Int.tmod vmin eb > 0) := by
        have := tmod_nonpos_of_nonpos vmin eb hmin (by omega)
        omega
      simp only [if_true]
      rw [safe_parse_negative_int]
      simp only [if_neg hmod]
      rw [neg_loop_spec vmin eb heb hmin digits 0 le_rfl hmin]
      have hneg0 : digits.foldl (fun x c => x * eb - (kAsciiToInt c : Int)) 0
          = -(digitsVal eb digits) := by
        have := foldl_digits_neg eb digits 0
        rw [neg_zero] at this
        exact this
      rw [hneg0]
      refine if_congr ?_ rfl rfl
      rw [hall]
      constructor
      · rintro ⟨ha, hle⟩
        exact ⟨ha, hle, by omega⟩
      · rintro ⟨ha, hle, -⟩
        exact ⟨ha, hle⟩

/-- C8 counterexample: in base 16 the input `"0x"` is accepted by
`safe_strto32_base` with value 0 — the `0x` prefix is consumed and the
remaining digit string is empty — whereas the claim (which requires a
non-empty digit string after the prefix) demands rejection. -/
theorem safe_strto_claim_counterexample :
    safe_strto32_base ['0', 'x'] 16 = some 0
      ∧ claimedSafeInt int32max int32min ['0', 'x'] 16 = none := by decide

/-- C8 amended: `safe_strto32_base` (resp. `safe_strto64_base`) returns
true with value `*v` exactly when, after trimming ASCII whitespace and
consuming an optional sign and base prefix, the remainder is a string of
valid digits for the resolved base — empty only when a base prefix (a
leading `0`, `0x`, or `0X`) was consumed, in which case the value is 0 —
whose signed value fits in int32 (resp. int64), including the most
negative value; out-of-range inputs return false instead of wrapping. -/
theorem safe_strto_base_amended :
    (∀ (s : List Char) (base : Int),
        safe_strto32_base s base = amendedSafeInt int32max int32min s base)
      ∧ (∀ (s : List Char) (base : Int),
        safe_strto64_base s base = amendedSafeInt int64max int64min s base) :=
  ⟨fun s base =>
      safe_int_internal_eq_amended int32max int32min (by norm_num [int32max])
        (by norm_num [int32min]) s base,
   fun s base =>
      safe_int_internal_eq_amended int64max int64min (by norm_num [int64max])
        (by norm_num [int64min]) s base⟩

/-! ## Claims about the decimal formatter -/

/-- The `two_ASCII_digits` table lists exactly the zero-padded two-digit
decimal forms. -/
theorem twoDigitChars_eq_padDec : ∀ d < 100, twoDigitChars d = padDec 2 d := by
  decide

/-- One padded digit. -/
theorem padDec_one (u : Nat) : padDec 1 u = [dchar (u % 10)] := rfl

/-- Splitting a zero-padded decimal representation at a power of ten. -/
theorem padDec_split (m n u : Nat) :
    padDec (m + n) u = padDec m (u / 10 ^ n) ++ padDec n (u % 10 ^ n) := by
  induction n generalizing u with
  | zero =>
    simp [padDec, Nat.mod_one]
  | succ k ih =>
    have h1 : m + (k + 1) = (m + k) + 1 := by omega
    rw [h1]
    rw [show padDec ((m + k) + 1) u = padDec (m + k) (u / 10) ++ [dchar (u % 10)] from rfl]
    rw [ih (u / 10)]
    rw [show padDec (k + 1) (u % 10 ^ (k + 1))
        = padDec k (u % 10 ^ (k + 1) / 10) ++ [dchar (u % 10 ^ (k + 1) % 10)] from rfl]
    have e1 : u / 10 / 10 ^ k = u / 10 ^ (k + 1) := by
      rw [Nat.div_div_eq_div_mul]
      rw [show (10 : Nat) * 10 ^ k = 10 ^ (k + 1) from by ring]
    have e2 : u % 10 ^ (k + 1) % 10 = u % 10 :=
      Nat.mod_mod_of_dvd u ⟨10 ^ k, by ring⟩
    have e3 : u % 10 ^ (k + 1) / 10 = u / 10 % 10 ^ k := by
      rw [show (10 : Nat) ^ (k + 1) = 10 * 10 ^ k from by ring]
      exact Nat.mod_mul_right_div_self u 10 (10 ^ k)
    rw [e1, e2, e3, List.append_assoc]

/-- The `lt100` label emits the zero-padded two-digit form. -/
theorem lt100_eq (u : Nat) (h : u < 100) : lt100 u = padDec 2 u :=
  twoDigitChars_eq_padDec u h

/-- The `lt10_000` label emits the zero-padded four-digit form. -/
theorem lt10_000_eq (u : Nat) (h : u < 10000) : lt10_000 u = padDec 4 u := by
  unfold lt10_000 sublt100
  show twoDigitChars (u / 100) ++ lt100 (u - u / 100 * 100) = padDec 4 u
  rw [show u - u / 100 * 100 = u % 100 from by omega]
  rw [lt100_eq _ (by omega), twoDigitChars_eq_padDec _ (by omega)]
  rw [show (4 : Nat) = 2 + 2 from rfl, padDec_split]
  norm_num

/-- The `lt1_000_000` label emits the zero-padded six-digit form. -/
theorem lt1_000_000_eq (u : Nat) (h : u < 1000000) : lt1_000_000 u = padDec 6 u := by
  unfold lt1_000_000 sublt10_000
  show twoDigitChars (u / 10000) ++ lt10_000 (u - u / 10000 * 10000) = padDec 6 u
  rw [show u - u / 10000 * 10000 = u % 10000 from by omega]
  rw [lt10_000_eq _ (by omega), twoDigitChars_eq_padDec _ (by omega)]
  rw [show (6 : Nat) = 2 + 4 from rfl, padDec_split]
  norm_num

/-- The `lt100_000_000` label emits the zero-padded eight-digit form. -/
theorem lt100_000_000_eq (u : Nat) (h : u < 100000000) :
    lt100_000_000 u = padDec 8 u := by
  unfold lt100_000_000 sublt1_000_000
  show twoDigitChars (u / 1000000) ++ lt1_000_000 (u - u / 1000000 * 1000000) = padDec 8 u
  rw [show u - u / 1000000 * 1000000 = u % 1000000 from by omega]
  rw [lt1_000_000_eq _ (by omega), twoDigitChars_eq_padDec _ (by omega)]
  rw [show (8 : Nat) = 2 + 6 from rfl, padDec_split]
  norm_num

/-- In its leading-digit range, the naive formatter coincides with the
zero-padded representation. -/
theorem naive_eq_padDec : ∀ (n u : Nat), 10 ^ n ≤ u → u < 10 ^ (n + 1) →
    naiveDecimal u = padDec (n + 1) u := by
  intro n
  induction n with
  | zero =>
    intro u h1 h2
    norm_num at h1 h2
    rw [naiveDecimal, dif_pos h2]
    rw [show padDec 1 u = [dchar (u % 10)] from rfl, Nat.mod_eq_of_lt h2]
  | succ k ih =>
    intro u h1 h2
    have h10 : ¬ u < 10 := by
      have : (10 : Nat) ≤ 10 ^ (k + 1) := by
        calc (10 : Nat) = 10 ^ 1 := by norm_num
        _ ≤ 10 ^ (k + 1) := Nat.pow_le_pow_right (by norm_num) (by omega)
      omega
    rw [naiveDecimal, dif_neg h10]
    have hd1 : 10 ^ k ≤ u / 10 := by
      rw [Nat.le_div_iff_mul_le (by norm_num)]
      calc 10 ^ k * 10 = 10 ^ (k + 1) := by ring
      _ ≤ u := h1
    have hd2 : u / 10 < 10 ^ (k + 1) := by
      rw [Nat.div_lt_iff_lt_mul (by norm_num)]
      calc u < 10 ^ (k + 2) := h2
      _ = 10 ^ (k + 1) * 10 := by ring
    rw [ih (u / 10) hd1 hd2]
    rfl

/-- C9: for every `uint32` value, `FastUInt32ToBufferLeft` writes exactly
the decimal representation of `u` (as the naive repeated-division
formatter produces it) followed by a NUL terminator, and returns the
pointer to that terminator. -/
theorem fast_uint32_eq_naive : ∀ u : Nat, u < 2 ^ 32 →
    FastUInt32ToBufferLeft u = naiveDecimal u
      ∧ fastUInt32Written u = naiveDecimal u ++ [Char.ofNat 0]
      ∧ fastUInt32RetOffset u = (naiveDecimal u).length := by
  intro u hu
  have main : FastUInt32ToBufferLeft u = naiveDecimal u := by
    unfold FastUInt32ToBufferLeft
    by_cases c1 : u < 10
    · rw [if_neg (by omega), if_pos (by omega : u < 100), if_neg (by omega : ¬ u ≥ 10)]
      rw [naiveDecimal, dif_pos c1]
    · by_cases c2 : u < 100
      · rw [if_neg (by omega), if_pos c2, if_pos (by omega : u ≥ 10)]
        rw [lt100_eq u c2, naive_eq_padDec 1 u (by omega) (by norm_num; omega)]
      · by_cases c3 : u < 1000
        · rw [if_neg (by omega), if_neg (by omega : ¬ u < 100),
            if_pos (by omega : u < 10000), if_neg (by omega : ¬ u ≥ 1000)]
          show dchar (u / 100) :: sublt100 u (u / 100) = naiveDecimal u
          unfold sublt100
          rw [show u - u / 100 * 100 = u % 100 from by omega]
          rw [lt100_eq _ (by omega)]
          rw [naive_eq_padDec 2 u (by norm_num; omega) (by norm_num; omega)]
          rw [show (2 : Nat) + 1 = 1 + 2 from rfl, padDec_split, padDec_one]
          rw [Nat.mod_eq_of_lt (by omega : u / 10 ^ 2 < 10)]
          norm_num
        · by_cases c4 : u < 10000
          · rw [if_neg (by omega), if_neg (by omega : ¬ u < 100), if_pos c4,
              if_pos (by omega : u ≥ 1000)]
            rw [lt10_000_eq u c4]
            rw [naive_eq_padDec 3 u (by norm_num; omega) (by norm_num; omega)]
          · by_cases c5 : u < 100000
            · rw [if_neg (by omega), if_neg (by omega : ¬ u < 100),
                if_neg (by omega : ¬ u < 10000), if_pos (by omega : u < 1000000),
                if_neg (by omega : ¬ u ≥ 100000)]
              show dchar (u / 10000) :: sublt10_000 u (u / 10000) = naiveDecimal u
              unfold sublt10_000
              rw [show u - u / 10000 * 10000 = u % 10000 from by omega]
              rw [lt10_000_eq _ (by omega)]
              rw [naive_eq_padDec 4 u (by norm_num; omega) (by norm_num; omega)]
              rw [show (4 : Nat) + 1 = 1 + 4 from rfl, padDec_split, padDec_one]
              rw [Nat.mod_eq_of_lt (by norm_num; omega : u / 10 ^ 4 < 10)]
              norm_num
            · by_cases c6 : u < 1000000
              · rw [if_neg (by omega), if_neg (by omega : ¬ u < 100),
                  if_neg (by omega : ¬ u < 10000), if_pos c6,
                  if_pos (by omega : u ≥ 100000)]
                rw [lt1_000_000_eq u c6]
                rw [naive_eq_padDec 5 u (by norm_num; omega) (by norm_num; omega)]
              · by_cases c7 : u < 10000000
                · rw [if_neg (by omega), if_neg (by omega : ¬ u < 100),
                    if_neg (by omega : ¬ u < 10000), if_neg (by omega : ¬ u < 1000000),
                    if_pos (by omega : u < 100000000), if_neg (by omega : ¬ u ≥ 10000000)]
                  show dchar (u / 1000000) :: sublt1_000_000 u (u / 1000000) = naiveDecimal u
                  unfold sublt1_000_000
                  rw [show u - u / 1000000 * 1000000 = u % 1000000 from by omega]
                  rw [lt1_000_000_eq _ (by omega)]
                  rw [naive_eq_padDec 6 u (by norm_num; omega) (by norm_num; omega)]
                  rw [show (6 : Nat) + 1 = 1 + 6 from rfl, padDec_split, padDec_one]
                  rw [Nat.mod_eq_of_lt (by norm_num; omega : u / 10 ^ 6 < 10)]
                  norm_num
                · by_cases c8 : u < 100000000
                  · rw [if_neg (by omega), if_neg (by omega : ¬ u < 100),
                      if_neg (by omega : ¬ u < 10000), if_neg (by omega : ¬ u < 1000000),
                      if_pos c8, if_pos (by omega : u ≥ 10000000)]
                    rw [lt100_000_000_eq u c8]
                    rw [naive_eq_padDec 7 u (by norm_num; omega) (by norm_num; omega)]
                  · by_cases c9 : u < 1000000000
                    · rw [if_neg (by omega), if_neg (by omega : ¬ u < 100),
                        if_neg (by omega : ¬ u < 10000),
                        if_neg (by omega : ¬ u < 1000000),
                        if_neg (by omega : ¬ u < 100000000)]
                      show dchar (u / 100000000) :: sublt100_000_000 u (u / 100000000)
                          = naiveDecimal u
                      unfold sublt100_000_000
                      rw [show u - u / 100000000 * 100000000 = u % 100000000 from by omega]
                      rw [lt100_000_000_eq _ (by omega)]
                      rw [naive_eq_padDec 8 u (by norm_num; omega) (by norm_num; omega)]
                      rw [show (8 : Nat) + 1 = 1 + 8 from rfl, padDec_split, padDec_one]
                      rw [Nat.mod_eq_of_lt (by norm_num; omega : u / 10 ^ 8 < 10)]
                      norm_num
                    · rw [if_pos (by omega : u ≥ 1000000000)]
                      show twoDigitChars (u / 100000000) ++ sublt100_000_000 u (u / 100000000)
                          = naiveDecimal u
                      unfold sublt100_000_000
                      rw [show u - u / 100000000 * 100000000 = u % 100000000 from by omega]
                      rw [lt100_000_000_eq _ (by omega)]
                      rw [twoDigitChars_eq_padDec _ (by norm_num at hu ⊢; omega)]
                      rw [naive_eq_padDec 9 u (by norm_num; omega) (by norm_num at hu ⊢; omega)]
                      rw [show (9 : Nat) + 1 = 2 + 8 from rfl, padDec_split]
                      norm_num
  exact ⟨main, by rw [fastUInt32Written, main], by rw [fastUInt32RetOffset, main]⟩

/-- Witness for C9 at `u = 1234567890`. -/
theorem fast_uint32_eq_naive_witness :
    1234567890 < 2 ^ 32
      ∧ FastUInt32ToBufferLeft 1234567890 = naiveDecimal 1234567890 :=
  ⟨by norm_num, (fast_uint32_eq_naive 1234567890 (by norm_num)).1⟩

/-! ## Claims about the digit-aware comparator -/

/-- Dropping a prefix never lengthens a list. -/
theorem dropWhile_length_le (p : Char → Bool) (l : List Char) :
    (l.dropWhile p).length ≤ l.length := by
  induction l with
  | nil => simp
  | cons x xs ih =>
    rw [List.dropWhile_cons]
    split
    · exact le_trans ih (by simp)
    · simp

/-- The first element surviving `dropWhile` fails the predicate. -/
theorem dropWhile_head_not (p : Char → Bool) (l : List Char) (c : Char)
    (t : List Char) (h : l.dropWhile p = c :: t) : p c = false := by
  induction l with
  | nil => simp at h
  | cons x xs ih =>
    rw [List.dropWhile_cons] at h
    split at h
    · exact ih h
    · next hp =>
      injection h with h1 h2
      subst h1
      cases hx : p x
      · rfl
      · exact absurd hx hp

/-- A zero digit is a digit. -/
theorem isDig_of_isZeroDigit (c : Char) (h : isZeroDigit c = true) :
    isDig c = true := by
  have : c = '0' := by simpa [isZeroDigit] using h
  subst this
  decide

/-- Digits have ASCII codes between 48 and 57. -/
theorem isDig_toNat (c : Char) (h : isDig c = true) :
    48 ≤ c.toNat ∧ c.toNat ≤ 57 := by
  simpa [isDig, Bool.and_eq_true, decide_eq_true_eq] using h

/-- Leading zeroes do not change the numeric value of a run. -/
theorem runVal_zeros_append (zl r : List Char) (hz : ∀ c ∈ zl, c = '0') :
    runVal (zl ++ r) = runVal r := by
  induction zl with
  | nil => rfl
  | cons x xs ih =>
    have hx : x = '0' := hz x (by simp)
    subst hx
    rw [List.cons_append]
    show runVal (xs ++ r) = runVal r
    exact ih fun c hc => hz c (by simp [hc])

/-- A maximal digit run splits into its leading zeroes and the rest. -/
theorem takeWhile_dig_split (l : List Char) :
    l.takeWhile isDig
      = l.takeWhile isZeroDigit ++ (l.dropWhile isZeroDigit).takeWhile isDig := by
  induction l with
  | nil => rfl
  | cons x xs ih =>
    by_cases hz : isZeroDigit x = true
    · have hd : isDig x = true := isDig_of_isZeroDigit x hz
      rw [List.takeWhile_cons, if_pos hd, List.takeWhile_cons, if_pos hz,
        List.dropWhile_cons, if_pos hz, List.cons_append, ih]
    · rw [List.takeWhile_cons isZeroDigit, if_neg hz, List.dropWhile_cons,
        if_neg hz, List.nil_append]

/-- Skipping the zeroes first does not change where the digit run ends. -/
theorem dropWhile_dig_zeros (l : List Char) :
    (l.dropWhile isZeroDigit).dropWhile isDig = l.dropWhile isDig := by
  induction l with
  | nil => rfl
  | cons x xs ih =>
    by_cases hz : isZeroDigit x = true
    · have hd : isDig x = true := isDig_of_isZeroDigit x hz
      rw [List.dropWhile_cons, if_pos hz, ih, List.dropWhile_cons, if_pos hd]
    · rw [List.dropWhile_cons, if_neg hz]

/-- Folding digits onto a decimal accumulator never decreases it. -/
theorem runVal_foldl_le (t : List Char) : ∀ a : Nat,
    a ≤ t.foldl (fun x c => x * 10 + (c.toNat - 48)) a := by
  induction t with
  | nil => intro a; simp
  | cons c cs ih =>
    intro a
    simp only [List.foldl_cons]
    exact le_trans (by omega) (ih (a * 10 + (c.toNat - 48)))

/-- A non-empty digit run without a leading zero has a positive value. -/
theorem runVal_pos (r : List Char) (hd : ∀ c ∈ r, isDig c = true)
    (hl : r.head? ≠ some '0') (hne : r ≠ []) : 1 ≤ runVal r := by
  cases r with
  | nil => exact absurd rfl hne
  | cons c t =>
    have hc := isDig_toNat c (hd c (by simp))
    have hc0 : c ≠ '0' := by
      intro h
      subst h
      simp at hl
    have hne48 : c.toNat ≠ 48 := by
      intro h
      exact hc0 (Char.ext (UInt32.ext h))
    show 1 ≤ List.foldl (fun x c => x * 10 + (c.toNat - 48)) (0 * 10 + (c.toNat - 48)) t
    exact le_trans (by omega) (runVal_foldl_le t (0 * 10 + (c.toNat - 48)))

/-- Appending one digit multiplies the run value by ten and adds it. -/
theorem runVal_concat (l : List Char) (c : Char) :
    runVal (l ++ [c]) = runVal l * 10 + (c.toNat - 48) := by
  unfold runVal
  rw [List.foldl_append]
  rfl

/-- A list does not begin with `'0'` if its one-element extension does
not. -/
theorem head_notzero_of_concat (l : List Char) (a : Char)
    (h : (l ++ [a]).head? ≠ some '0') : l.head? ≠ some '0' := by
  cases l <;> simp_all

/-- Digit runs without leading zeroes are determined by their numeric
value. -/
theorem runVal_inj (r1 : List Char) : ∀ (r2 : List Char),
    (∀ c ∈ r1, isDig c = true) → (∀ c ∈ r2, isDig c = true) →
    r1.head? ≠ some '0' → r2.head? ≠ some '0' →
    runVal r1 = runVal r2 → r1 = r2 := by
  induction r1 using List.reverseRecOn with
  | nil =>
    intro r2 _ hd2 _ hl2 hv
    rcases List.eq_nil_or_concat r2 with rfl | ⟨l2, a2, rfl⟩
    · rfl
    · have hpos : 1 ≤ runVal (l2.concat a2) :=
        runVal_pos _ hd2 hl2 (by simp)
      have : runVal ([] : List Char) = 0 := rfl
      omega
  | append_singleton l1 a1 ih =>
    intro r2 hd1 hd2 hl1 hl2 hv
    rcases List.eq_nil_or_concat r2 with rfl | ⟨l2, a2, rfl⟩
    · have hpos : 1 ≤ runVal (l1 ++ [a1]) := runVal_pos _ hd1 hl1 (by simp)
      have : runVal ([] : List Char) = 0 := rfl
      omega
    · rw [List.concat_eq_append] at hd2 hl2 hv ⊢
      rw [runVal_concat, runVal_concat] at hv
      have hb1 := isDig_toNat a1 (hd1 a1 (by simp))
      have hb2 := isDig_toNat a2 (hd2 a2 (by simp))
      have heq : a1.toNat = a2.toNat ∧ runVal l1 = runVal l2 := by omega
      have ha : a1 = a2 := Char.ext (UInt32.ext heq.1)
      have hl : l1 = l2 :=
        ih l2 (fun c hc => hd1 c (by simp [hc])) (fun c hc => hd2 c (by simp [hc]))
          (head_notzero_of_concat l1 a1 hl1) (head_notzero_of_concat l2 a2 hl2)
          heq.2
      rw [ha, hl]

/-- `lexCmp` of a run with itself is zero. -/
theorem lexCmp_self (r : List Char) : lexCmp r r = 0 := by
  induction r with
  | nil => rfl
  | cons c t ih =>
    show (if c < c then (-1 : Int) else if c < c then 1 else lexCmp t t) = 0
    rw [if_neg (lt_irrefl c), if_neg (lt_irrefl c)]
    exact ih

/-- Swapping the arguments of `lexCmp` negates it. -/
theorem lexCmp_antisymm (r1 : List Char) : ∀ r2, lexCmp r1 r2 = -lexCmp r2 r1 := by
  induction r1 with
  | nil =>
    intro r2
    cases r2 <;> rfl
  | cons a as ih =>
    intro r2
    cases r2 with
    | nil => rfl
    | cons b bs =>
      show (if a < b then (-1 : Int) else if b < a then 1 else lexCmp as bs)
          = -(if b < a then (-1 : Int) else if a < b then 1 else lexCmp bs as)
      rcases lt_trichotomy a b with h | h | h
      · rw [if_pos h, if_neg (lt_asymm h), if_pos h]
      · subst h
        rw [if_neg (lt_irrefl a), if_neg (lt_irrefl a), if_neg (lt_irrefl a),
          if_neg (lt_irrefl a)]
        exact ih bs
      · rw [if_neg (lt_asymm h), if_pos h, if_pos h]
        decide

/-- `tokensAux` ignores the fuel once it covers the list length. -/
theorem tokensAux_fuel (f1 : Nat) : ∀ (f2 : Nat) (l : List Char),
    l.length ≤ f1 → l.length ≤ f2 → tokensAux f1 l = tokensAux f2 l := by
  induction f1 with
  | zero =>
    intro f2 l h1 _
    have hl : l = [] := by
      cases l
      · rfl
      · simp at h1
    subst hl
    cases f2 <;> rfl
  | succ g ih =>
    intro f2 l h1 h2
    cases l with
    | nil => cases f2 <;> rfl
    | cons c t =>
      cases f2 with
      | zero => simp at h2
      | succ g2 =>
        show (if isDig c = true then
            AToken.num (runVal ((c :: t).takeWhile isDig))
              :: tokensAux g ((c :: t).dropWhile isDig)
          else AToken.ch c :: tokensAux g t)
          = (if isDig c = true then
            AToken.num (runVal ((c :: t).takeWhile isDig))
              :: tokensAux g2 ((c :: t).dropWhile isDig)
          else AToken.ch c :: tokensAux g2 t)
        simp only [List.length_cons] at h1 h2
        by_cases hd : isDig c = true
        · rw [if_pos hd, if_pos hd]
          congr 1
          have hlen : ((c :: t).dropWhile isDig).length ≤ t.length := by
            rw [List.dropWhile_cons, if_pos hd]
            exact dropWhile_length_le isDig t
          exact ih g2 _ (by omega) (by omega)
        · rw [if_neg hd, if_neg hd]
          congr 1
          exact ih g2 t (by omega) (by omega)

/-- Equation for `tokens` at a digit head: the maximal run becomes one
`num` token. -/
theorem tokens_cons_dig (c : Char) (t : List Char) (h : isDig c = true) :
    tokens (c :: t)
      = .num (runVal ((c :: t).takeWhile isDig))
          :: tokens ((c :: t).dropWhile isDig) := by
  show tokensAux (t.length + 1) (c :: t) = _
  rw [show tokensAux (t.length + 1) (c :: t)
      = (if isDig c = true then
          AToken.num (runVal ((c :: t).takeWhile isDig))
            :: tokensAux t.length ((c :: t).dropWhile isDig)
        else AToken.ch c :: tokensAux t.length t) from rfl]
  rw [if_pos h]
  congr 1
  apply tokensAux_fuel
  · rw [List.dropWhile_cons, if_pos h]
    exact dropWhile_length_le isDig t
  · exact le_rfl

/-- Equation for `tokens` at a non-digit head. -/
theorem tokens_cons_ch (c : Char) (t : List Char) (h : isDig c = false) :
    tokens (c :: t) = .ch c :: tokens t := by
  show tokensAux (t.length + 1) (c :: t) = _
  rw [show tokensAux (t.length + 1) (c :: t)
      = (if isDig c = true then
          AToken.num (runVal ((c :: t).takeWhile isDig))
            :: tokensAux t.length ((c :: t).dropWhile isDig)
        else AToken.ch c :: tokensAux t.length t) from rfl]
  rw [if_neg (by simp [h])]
  rfl

/-- A non-empty string has at least one token. -/
theorem tokens_cons_ne_nil (c : Char) (t : List Char) : tokens (c :: t) ≠ [] := by
  by_cases h : isDig c = true
  · rw [tokens_cons_dig c t h]
    simp
  · rw [tokens_cons_ch c t (by simpa using h)]
    simp

/-- One unfolding of the comparator loop when both current bytes are
digits. -/
theorem cmpAux_step_dig (strict : Bool) (f : Nat) (ca cb : Char)
    (ta tb : List Char) (hd : (isDig ca && isDig cb) = true) :
    autoDigitCmpAux strict (f + 1) (ca :: ta) (cb :: tb)
      = (if (((ca :: ta).dropWhile isZeroDigit).takeWhile isDig).length
            < (((cb :: tb).dropWhile isZeroDigit).takeWhile isDig).length then -1
        else if (((cb :: tb).dropWhile isZeroDigit).takeWhile isDig).length
            < (((ca :: ta).dropWhile isZeroDigit).takeWhile isDig).length then 1
        else if lexCmp (((ca :: ta).dropWhile isZeroDigit).takeWhile isDig)
              (((cb :: tb).dropWhile isZeroDigit).takeWhile isDig) ≠ 0 then
          lexCmp (((ca :: ta).dropWhile isZeroDigit).takeWhile isDig)
            (((cb :: tb).dropWhile isZeroDigit).takeWhile isDig)
        else if strict && ((ca :: ta).takeWhile isZeroDigit).length
              ≠ ((cb :: tb).takeWhile isZeroDigit).length then
          if ((cb :: tb).takeWhile isZeroDigit).length
              < ((ca :: ta).takeWhile isZeroDigit).length then -1 else 1
        else autoDigitCmpAux strict f
          (((ca :: ta).dropWhile isZeroDigit).dropWhile isDig)
          (((cb :: tb).dropWhile isZeroDigit).dropWhile isDig)) := by
  rw [autoDigitCmpAux, if_pos hd]

/-- One unfolding of the comparator loop when at least one current byte
is not a digit. -/
theorem cmpAux_step_ch (strict : Bool) (f : Nat) (ca cb : Char)
    (ta tb : List Char) (hd : (isDig ca && isDig cb) = false) :
    autoDigitCmpAux strict (f + 1) (ca :: ta) (cb :: tb)
      = (if ca < cb then -1 else if cb < ca then 1
         else autoDigitCmpAux strict f ta tb) := by
  rw [autoDigitCmpAux, if_neg (by simp [hd])]

/-- Consuming the current digit run removes at least one byte. -/
theorem consume_run_le (c : Char) (t : List Char) (h : isDig c = true) :
    (((c :: t).dropWhile isZeroDigit).dropWhile isDig).length ≤ t.length := by
  by_cases hz : isZeroDigit c = true
  · rw [List.dropWhile_cons, if_pos hz]
    exact le_trans (dropWhile_length_le isDig _) (dropWhile_length_le isZeroDigit t)
  · rw [List.dropWhile_cons, if_neg hz, List.dropWhile_cons, if_pos h]
    exact dropWhile_length_le isDig t

/-- The comparator is antisymmetric at every sufficient fuel. -/
theorem cmpAux_antisymm (n : Nat) : ∀ (a b : List Char) (strict : Bool),
    a.length + b.length ≤ n →
    autoDigitCmpAux strict n a b = -autoDigitCmpAux strict n b a := by
  induction n with
  | zero => intro a b s _; rfl
  | succ m ih =>
    intro a b s h
    match a, b with
    | [], [] => rfl
    | [], c :: t => rfl
    | c :: t, [] => rfl
    | ca :: ta, cb :: tb =>
      simp only [List.length_cons] at h
      by_cases hd : (isDig ca && isDig cb) = true
      · have hd' : (isDig cb && isDig ca) = true := by
          rw [Bool.and_comm] at hd
          exact hd
        rw [cmpAux_step_dig s m ca cb ta tb hd, cmpAux_step_dig s m cb ca tb ta hd']
        have hda : isDig ca = true := ((Bool.and_eq_true _ _).mp hd).1
        have hdb : isDig cb = true := ((Bool.and_eq_true _ _).mp hd).2
        set ra := ((ca :: ta).dropWhile isZeroDigit).takeWhile isDig
        set rb := ((cb :: tb).dropWhile isZeroDigit).takeWhile isDig
        set az := ((ca :: ta).takeWhile isZeroDigit).length
        set bz := ((cb :: tb).takeWhile isZeroDigit).length
        set resta := ((ca :: ta).dropWhile isZeroDigit).dropWhile isDig
        set restb := ((cb :: tb).dropWhile isZeroDigit).dropWhile isDig
        rcases Nat.lt_trichotomy ra.length rb.length with hlen | hlen | hlen
        · rw [if_pos hlen, if_neg (show ¬ rb.length < ra.length by omega),
            if_pos hlen]
        · have hA : ¬ ra.length < rb.length := by omega
          have hB : ¬ rb.length < ra.length := by omega
          rw [if_neg hA, if_neg hB, if_neg hB, if_neg hA]
          by_cases hx : lexCmp ra rb = 0
          · have hx' : lexCmp rb ra = 0 := by
              rw [lexCmp_antisymm, hx]
              rfl
            rw [if_neg (show ¬ (lexCmp ra rb ≠ 0) by simpa using hx),
              if_neg (show ¬ (lexCmp rb ra ≠ 0) by simpa using hx')]
            by_cases hz : (s && decide (az ≠ bz)) = true
            · have hzne : az ≠ bz := of_decide_eq_true ((Bool.and_eq_true _ _).mp hz).2
              have hz' : (s && decide (bz ≠ az)) = true := by
                rw [((Bool.and_eq_true _ _).mp hz).1]
                simpa using (Ne.symm hzne)
              rw [if_pos hz, if_pos hz']
              rcases Nat.lt_trichotomy az bz with hw | hw | hw
              · rw [if_neg (show ¬ bz < az by omega), if_pos hw]
                decide
              · exact absurd hw hzne
              · rw [if_pos hw, if_neg (show ¬ az < bz by omega)]
            · have hz' : ¬ (s && decide (bz ≠ az)) = true := by
                intro hcon
                refine hz ?_
                rw [((Bool.and_eq_true _ _).mp hcon).1]
                simpa using (of_decide_eq_true ((Bool.and_eq_true _ _).mp hcon).2).symm
              rw [if_neg hz, if_neg hz']
              apply ih
              have h1 : resta.length ≤ ta.length := consume_run_le ca ta hda
              have h2 : restb.length ≤ tb.length := consume_run_le cb tb hdb
              omega
          · rw [if_pos (show lexCmp ra rb ≠ 0 from hx)]
            have hx' : lexCmp rb ra ≠ 0 := by
              rw [lexCmp_antisymm]
              simpa using hx
            rw [if_pos (show lexCmp rb ra ≠ 0 from hx')]
            rw [lexCmp_antisymm ra rb]
        · rw [if_neg (show ¬ ra.length < rb.length by omega), if_pos hlen,
            if_pos hlen]
          decide
      · have hdf : (isDig ca && isDig cb) = false := by simpa using hd
        have hdf' : (isDig cb && isDig ca) = false := by
          rw [Bool.and_comm] at hdf
          exact hdf
        rw [cmpAux_step_ch s m ca cb ta tb hdf, cmpAux_step_ch s m cb ca tb ta hdf']
        rcases lt_trichotomy ca cb with hc | hc | hc
        · rw [if_pos hc, if_neg (lt_asymm hc), if_pos hc]
        · subst hc
          rw [if_neg (lt_irrefl ca), if_neg (lt_irrefl ca), if_neg (lt_irrefl ca),
            if_neg (lt_irrefl ca)]
          apply ih
          omega
        · rw [if_neg (lt_asymm hc), if_pos hc, if_pos hc]
          decide

/-- Every byte of a zero prefix is `'0'`. -/
theorem mem_takeWhile_zeros (l : List Char) :
    ∀ c ∈ l.takeWhile isZeroDigit, c = '0' := by
  intro c hc
  simpa [isZeroDigit] using List.mem_takeWhile_imp hc

/-- The digit run left after skipping zeroes never starts with `'0'`. -/
theorem stripped_head_ne_zero (l : List Char) :
    ((l.dropWhile isZeroDigit).takeWhile isDig).head? ≠ some '0' := by
  cases hsa : l.dropWhile isZeroDigit with
  | nil => simp
  | cons x xs =>
    have hx : isZeroDigit x = false := dropWhile_head_not isZeroDigit l x xs hsa
    have hx0 : x ≠ '0' := by
      intro hcon
      subst hcon
      simp [isZeroDigit] at hx
    rw [List.takeWhile_cons]
    split
    · simp [hx0]
    · simp

/-- Two strings whose maximal digit runs have the same numeric value have
the same stripped (zero-free) digit runs. -/
theorem stripped_run_eq (la lb : List Char)
    (hv : runVal (la.takeWhile isDig) = runVal (lb.takeWhile isDig)) :
    (la.dropWhile isZeroDigit).takeWhile isDig
      = (lb.dropWhile isZeroDigit).takeWhile isDig := by
  have h1 : runVal (la.takeWhile isDig)
      = runVal ((la.dropWhile isZeroDigit).takeWhile isDig) := by
    rw [takeWhile_dig_split la]
    exact runVal_zeros_append _ _ (mem_takeWhile_zeros la)
  have h2 : runVal (lb.takeWhile isDig)
      = runVal ((lb.dropWhile isZeroDigit).takeWhile isDig) := by
    rw [takeWhile_dig_split lb]
    exact runVal_zeros_append _ _ (mem_takeWhile_zeros lb)
  exact runVal_inj _ _ (fun c hc => List.mem_takeWhile_imp hc)
    (fun c hc => List.mem_takeWhile_imp hc)
    (stripped_head_ne_zero la) (stripped_head_ne_zero lb)
    (h1 ▸ h2 ▸ hv)

/-- With sufficient fuel, strings with equal token sequences compare
equal in non-strict mode. -/
theorem cmpAux_tokens_eq_zero (n : Nat) : ∀ (a b : List Char),
    a.length + b.length ≤ n → tokens a = tokens b →
    autoDigitCmpAux false n a b = 0 := by
  induction n with
  | zero => intro a b _ _; rfl
  | succ m ih =>
    intro a b h ht
    match a, b with
    | [], [] => rfl
    | [], c :: t => exact absurd ht.symm (tokens_cons_ne_nil c t)
    | c :: t, [] => exact absurd ht (tokens_cons_ne_nil c t)
    | ca :: ta, cb :: tb =>
      simp only [List.length_cons] at h
      by_cases hda : isDig ca = true
      · by_cases hdb : isDig cb = true
        · rw [tokens_cons_dig ca ta hda, tokens_cons_dig cb tb hdb] at ht
          injection ht with h1 h2
          injection h1 with hv
          have hruns := stripped_run_eq (ca :: ta) (cb :: tb) hv
          have hd : (isDig ca && isDig cb) = true := by rw [hda, hdb]; rfl
          rw [cmpAux_step_dig false m ca cb ta tb hd, hruns]
          rw [if_neg (lt_irrefl _), if_neg (lt_irrefl _)]
          rw [if_neg (by simp [lexCmp_self])]
          rw [if_neg (by simp)]
          rw [dropWhile_dig_zeros (ca :: ta), dropWhile_dig_zeros (cb :: tb)]
          apply ih
          · have h1a : ((ca :: ta).dropWhile isDig).length ≤ ta.length := by
              rw [List.dropWhile_cons, if_pos hda]
              exact dropWhile_length_le isDig ta
            have h1b : ((cb :: tb).dropWhile isDig).length ≤ tb.length := by
              rw [List.dropWhile_cons, if_pos hdb]
              exact dropWhile_length_le isDig tb
            omega
          · exact h2
        · rw [tokens_cons_dig ca ta hda,
            tokens_cons_ch cb tb (by simpa using hdb)] at ht
          simp at ht
      · by_cases hdb : isDig cb = true
        · rw [tokens_cons_ch ca ta (by simpa using hda),
            tokens_cons_dig cb tb hdb] at ht
          simp at ht
        · rw [tokens_cons_ch ca ta (by simpa using hda),
            tokens_cons_ch cb tb (by simpa using hdb)] at ht
          injection ht with h1 h2
          injection h1 with hc
          subst hc
          have hdf : (isDig ca && isDig ca) = false := by
            simp [show isDig ca = false by simpa using hda]
          rw [cmpAux_step_ch false m ca ca ta tb hdf]
          rw [if_neg (lt_irrefl ca), if_neg (lt_irrefl ca)]
          exact ih ta tb (by omega) h2

/-- With sufficient fuel, distinct strings with equal token sequences
never compare equal in strict mode. -/
theorem cmpAux_tokens_strict_ne (n : Nat) : ∀ (a b : List Char),
    a.length + b.length ≤ n → tokens a = tokens b → a ≠ b →
    autoDigitCmpAux true n a b ≠ 0 := by
  induction n with
  | zero =>
    intro a b h _ hne
    have ha : a = [] := List.eq_nil_of_length_eq_zero (by omega)
    have hb : b = [] := List.eq_nil_of_length_eq_zero (by omega)
    exact absurd (ha.trans hb.symm) hne
  | succ m ih =>
    intro a b h ht hne
    match a, b with
    | [], [] => exact absurd rfl hne
    | [], c :: t => exact absurd ht.symm (tokens_cons_ne_nil c t)
    | c :: t, [] => exact absurd ht (tokens_cons_ne_nil c t)
    | ca :: ta, cb :: tb =>
      simp only [List.length_cons] at h
      by_cases hda : isDig ca = true
      · by_cases hdb : isDig cb = true
        · rw [tokens_cons_dig ca ta hda, tokens_cons_dig cb tb hdb] at ht
          injection ht with h1 h2
          injection h1 with hv
          have hruns := stripped_run_eq (ca :: ta) (cb :: tb) hv
          have hd : (isDig ca && isDig cb) = true := by rw [hda, hdb]; rfl
          rw [cmpAux_step_dig true m ca cb ta tb hd, hruns]
          rw [if_neg (lt_irrefl _), if_neg (lt_irrefl _)]
          rw [if_neg (by simp [lexCmp_self])]
          by_cases hz : ((ca :: ta).takeWhile isZeroDigit).length
              = ((cb :: tb).takeWhile isZeroDigit).length
          · rw [if_neg (by simpa using hz)]
            rw [dropWhile_dig_zeros (ca :: ta), dropWhile_dig_zeros (cb :: tb)]
            have hzeq : (ca :: ta).takeWhile isZeroDigit
                = (cb :: tb).takeWhile isZeroDigit := by
              have e1 : (ca :: ta).takeWhile isZeroDigit
                  = List.replicate ((ca :: ta).takeWhile isZeroDigit).length '0' :=
                List.eq_replicate_iff.mpr ⟨rfl, mem_takeWhile_zeros (ca :: ta)⟩
              have e2 : (cb :: tb).takeWhile isZeroDigit
                  = List.replicate ((cb :: tb).takeWhile isZeroDigit).length '0' :=
                List.eq_replicate_iff.mpr ⟨rfl, mem_takeWhile_zeros (cb :: tb)⟩
              rw [e1, e2, hz]
            apply ih
            · have h1a : ((ca :: ta).dropWhile isDig).length ≤ ta.length := by
                rw [List.dropWhile_cons, if_pos hda]
                exact dropWhile_length_le isDig ta
              have h1b : ((cb :: tb).dropWhile isDig).length ≤ tb.length := by
                rw [List.dropWhile_cons, if_pos hdb]
                exact dropWhile_length_le isDig tb
              omega
            · exact h2
            · intro hre
              apply hne
              have da : ca :: ta
                  = (ca :: ta).takeWhile isZeroDigit
                    ++ (((ca :: ta).dropWhile isZeroDigit).takeWhile isDig
                      ++ (((ca :: ta).dropWhile isZeroDigit).dropWhile isDig)) := by
                rw [List.takeWhile_append_dropWhile, List.takeWhile_append_dropWhile]
              have db : cb :: tb
                  = (cb :: tb).takeWhile isZeroDigit
                    ++ (((cb :: tb).dropWhile isZeroDigit).takeWhile isDig
                      ++ (((cb :: tb).dropWhile isZeroDigit).dropWhile isDig)) := by
                rw [List.takeWhile_append_dropWhile, List.takeWhile_append_dropWhile]
              rw [da, db, hzeq, hruns, dropWhile_dig_zeros (ca :: ta), hre,
                dropWhile_dig_zeros (cb :: tb)]
          · rw [if_pos (by simpa using hz)]
            split
            · decide
            · decide
        · rw [tokens_cons_dig ca ta hda,
            tokens_cons_ch cb tb (by simpa using hdb)] at ht
          simp at ht
      · by_cases hdb : isDig cb = true
        · rw [tokens_cons_ch ca ta (by simpa using hda),
            tokens_cons_dig cb tb hdb] at ht
          simp at ht
        · rw [tokens_cons_ch ca ta (by simpa using hda),
            tokens_cons_ch cb tb (by simpa using hdb)] at ht
          injection ht with h1 h2
          injection h1 with hc
          subst hc
          have hdf : (isDig ca && isDig ca) = false := by
            simp [show isDig ca = false by simpa using hda]
          rw [cmpAux_step_ch true m ca ca ta tb hdf]
          rw [if_neg (lt_irrefl ca), if_neg (lt_irrefl ca)]
          exact ih ta tb (by omega) h2 (by intro hcon; exact hne (by rw [hcon]))

/-- C10: `AutoDigitStrCmp` is antisymmetric — swapping the arguments
negates the result (so the two orientations are zero together) — for both
values of the strict flag; in non-strict mode two strings whose
corresponding digit runs are numerically equal (equal `tokens`, e.g.
`"01"` and `"1"`) compare equal, while in strict mode such strings
compare equal only when they are identical. -/
theorem auto_digit_cmp_spec :
    (∀ (a b : List Char) (strict : Bool),
        AutoDigitStrCmp a b strict = -AutoDigitStrCmp b a strict)
      ∧ (∀ a b : List Char, tokens a = tokens b → AutoDigitStrCmp a b false = 0)
      ∧ (∀ a b : List Char, tokens a = tokens b → a ≠ b →
          AutoDigitStrCmp a b true ≠ 0) := by
  refine ⟨?_, ?_, ?_⟩
  · intro a b s
    unfold AutoDigitStrCmp
    rw [Nat.add_comm b.length a.length]
    exact cmpAux_antisymm (a.length + b.length) a b s le_rfl
  · intro a b ht
    exact cmpAux_tokens_eq_zero (a.length + b.length) a b le_rfl ht
  · intro a b ht hne
    exact cmpAux_tokens_strict_ne (a.length + b.length) a b le_rfl ht hne

/-- Witness for C10 on `"01"` versus `"1"` (numerically equal digit
runs): equal in non-strict mode, unequal in strict mode. -/
theorem auto_digit_cmp_spec_witness :
    AutoDigitStrCmp ['0', '1'] ['1'] false = 0
      ∧ AutoDigitStrCmp ['0', '1'] ['1'] true ≠ 0
      ∧ AutoDigitStrCmp ['a', '2'] ['a', '1', '0'] false
          = -AutoDigitStrCmp ['a', '1', '0'] ['a', '2'] false :=
  ⟨auto_digit_cmp_spec.2.1 ['0', '1'] ['1'] (by decide),
   auto_digit_cmp_spec.2.2 ['0', '1'] ['1'] (by decide) (by decide),
   auto_digit_cmp_spec.1 ['a', '2'] ['a', '1', '0'] false⟩
